import Mathlib

/-!
Verification development for the go-comic-converter image pipeline.

The Go sources embedded here are:
- internal/epub/image_processing.go (package epub): colorIsBlank, findMarging,
  LoadImages (worker step, dry path, result assembly), loadCbz, loadCbr.
- internal/epub/imageprocessor/epub_image_processor_loader.go
  (package epubimageprocessor): corruptedImage, the loader worker step with
  decode fallback, and the cbr solid/non-solid strategy.

Conventions of the embedding:
- A pixel color is represented by its gray luma (the value color.GrayModel
  produces in Go), a Nat in 0..255.
- A Go image.Image is a rectangle of Int bounds (Min inclusive, Max exclusive)
  plus a luma function; image.Rectangle is the Rect structure below.
- Go for-loops that shrink a bound are written as fuel recursion, called with
  fuel equal to the maximal number of iterations the loop can make.
-/

namespace GoComic

/-- Go image.Rectangle: Min (inclusive) and Max (exclusive) corners. -/
structure Rect where
  minX : Int
  minY : Int
  maxX : Int
  maxY : Int
deriving DecidableEq, Repr

/-- Width of a rectangle, Go Rectangle.Dx. -/
def Rect.dx (r : Rect) : Int := r.maxX - r.minX

/-- Height of a rectangle, Go Rectangle.Dy. -/
def Rect.dy (r : Rect) : Int := r.maxY - r.minY

/-- Signed area of a rectangle. -/
def Rect.area (r : Rect) : Int := r.dx * r.dy

/-- A decoded bitmap: bounds plus the luma of each pixel.  The pix function
models img.At composed with the standard gray conversion that colorIsBlank
performs in Go. -/
structure Img where
  minX : Int
  minY : Int
  maxX : Int
  maxY : Int
  pix : Int → Int → Nat

/-- Bounds of a bitmap, Go img.Bounds(). -/
def Img.bounds (img : Img) : Rect := ⟨img.minX, img.minY, img.maxX, img.maxY⟩

/-- Go img.Bounds().Dx(). -/
def Img.dx (img : Img) : Int := img.maxX - img.minX

/-- Go img.Bounds().Dy(). -/
def Img.dy (img : Img) : Int := img.maxY - img.minY

/-- colorIsBlank from image_processing.go: the gray value is at least 0xf0. -/
def colorIsBlank (luma : Nat) : Bool := decide (240 ≤ luma)

/-- The list of Ints lo, lo+1, ..., hi-1 (empty when hi ≤ lo). -/
def intRange (lo hi : Int) : List Int :=
  (List.range (hi - lo).toNat).map (fun (k : Nat) => lo + (k : Int))

/-- Inner loop of the LEFT and RIGHT passes of findMarging: every pixel of
column x with y in [yLo, yHi) is blank (List.all short-circuits exactly like
the Go inner loop's break). -/
def colBlank (img : Img) (yLo yHi x : Int) : Bool :=
  (intRange yLo yHi).all (fun y => colorIsBlank (img.pix x y))

/-- Inner loop of the UP and BOTTOM passes of findMarging: every pixel of
row y with x in [xLo, xHi) is blank. -/
def rowBlank (img : Img) (xLo xHi y : Int) : Bool :=
  (intRange xLo xHi).all (fun x => colorIsBlank (img.pix x y))

/-- A Go loop of the shape
for x := lo; x < hi; x++ (with lo re-read each pass): if the sweep line P lo
is all blank, increment lo and continue, else break.  Fuel bounds the number
of iterations; call sites pass the exact width of the scanned span. -/
def shrinkLo (P : Int → Bool) (hi : Int) : Int → Nat → Int
  | lo, 0 => lo
  | lo, Nat.succ fuel =>
    if lo < hi ∧ P lo = true then shrinkLo P hi (lo + 1) fuel else lo

/-- A Go loop of the shape
for x := hi - 1; x >= lo; x--: if the sweep line P (hi-1) is all blank,
decrement hi and continue, else break. -/
def shrinkHi (P : Int → Bool) (lo : Int) : Int → Nat → Int
  | hi, 0 => hi
  | hi, Nat.succ fuel =>
    if lo ≤ hi - 1 ∧ P (hi - 1) = true then shrinkHi P lo (hi - 1) fuel else hi

/-- findMarging from image_processing.go: the four passes run in the fixed
order LEFT, UP, RIGHT, BOTTOM, each pass scanning over the bounds as already
shrunk by the previous passes (UP scans x from the shrunk Min.X, RIGHT scans
y from the shrunk Min.Y and stops at x ≥ shrunk Min.X, BOTTOM scans x in the
shrunk [Min.X, Max.X) and stops at y ≥ shrunk Min.Y). -/
def findMarging (img : Img) : Rect :=
  let w := (img.maxX - img.minX).toNat
  let h := (img.maxY - img.minY).toNat
  let m1x := shrinkLo (colBlank img img.minY img.maxY) img.maxX img.minX w
  let m1y := shrinkLo (rowBlank img m1x img.maxX) img.maxY img.minY h
  let m2x := shrinkHi (colBlank img m1y img.maxY) m1x img.maxX w
  let m2y := shrinkHi (rowBlank img m1x m2x) m1y img.maxY h
  ⟨m1x, m1y, m2x, m2y⟩

/-- The margin detector as the spec describes it: each of the four sides is
shrunk against the bitmap's ORIGINAL bounds, independent of the other sides.
This definition follows the spec's words and is compared against findMarging,
which is translated from the source. -/
def findMargingIndep (img : Img) : Rect :=
  let w := (img.maxX - img.minX).toNat
  let h := (img.maxY - img.minY).toNat
  ⟨shrinkLo (colBlank img img.minY img.maxY) img.maxX img.minX w,
   shrinkLo (rowBlank img img.minX img.maxX) img.maxY img.minY h,
   shrinkHi (colBlank img img.minY img.maxY) img.minX img.maxX w,
   shrinkHi (rowBlank img img.minX img.maxX) img.minY img.maxY h⟩

/-- Modelled from the spec: the crop stage applied around gift.Crop (the gift
library is not under src).  Per the spec, a zero-or-negative-area rectangle
means skip the crop and keep the original bounds; otherwise the bitmap's
bounds become the rectangle (pixel coordinates are kept untranslated, which
preserves all dimensions). -/
def applyCrop (r : Rect) (img : Img) : Img :=
  if r.maxX - r.minX ≤ 0 ∨ r.maxY - r.minY ≤ 0 then img
  else { img with minX := r.minX, minY := r.minY, maxX := r.maxX, maxY := r.maxY }

/-- Every pixel inside the bounds is blank. -/
def AllBlank (img : Img) : Prop :=
  ∀ x y, img.minX ≤ x → x < img.maxX → img.minY ≤ y → y < img.maxY →
    colorIsBlank (img.pix x y) = true

/-- Go images have Min ≤ Max. -/
def WellFormed (img : Img) : Prop :=
  img.minX ≤ img.maxX ∧ img.minY ≤ img.maxY

/-! ### The LoadImages worker step (package epub, image_processing.go) -/

/-- The ImageOptions fields consumed by the LoadImages pipeline. -/
structure ImageOptions where
  crop : Bool
  viewWidth : Int
  viewHeight : Int
  quality : Nat
  workers : Nat
  hasCover : Bool
  autoSplitDoublePage : Bool
  noBlankPage : Bool
deriving Repr

/-- The Image record LoadImages emits (the Data pointer, which only repeats
Id, Part and the encoded bytes, is not carried). -/
structure OutImage where
  id : Nat
  part : Nat
  width : Int
  height : Int
  isCover : Bool
  needSpace : Bool
  path : String
deriving DecidableEq, Repr

/-- The optional crop stage of the worker: when options.Crop, the source is
replaced by the crop of findMarging's rectangle. -/
def cropStage (opts : ImageOptions) (src0 : Img) : Img :=
  if opts.crop then applyCrop (findMarging src0) src0 else src0

/-- The split condition of the worker, verbatim from LoadImages:
(not HasCover or Id > 0) and AutoSplitDoublePage and Dx > Dy and
Dx > ViewHeight and Dy > ViewWidth, evaluated on the bitmap it is given. -/
def splitEligible (opts : ImageOptions) (id : Nat) (src : Img) : Bool :=
  (!opts.hasCover || decide (0 < id)) && opts.autoSplitDoublePage &&
  decide (src.dy < src.dx) && decide (opts.viewHeight < src.dx) &&
  decide (opts.viewWidth < src.dy)

/-- Modelled from the spec: NewGiftSplitDoublePage (not under src) returns
the two half transforms, left then right; each transform is represented by
the dimensions it produces from its input. -/
def newGiftSplitDoublePage (tfL tfR : Img → Int × Int) : List (Img → Int × Int) :=
  [tfL, tfR]

/-- One iteration of the LoadImages worker body after a successful decode:
optional crop, the unsplit transform is emitted with Part 0 and
IsCover = (Id == 0), and when the split condition holds on the (possibly
cropped) source, the two half transforms are additionally emitted with
Part 1 and Part 2 and IsCover false.  tf models NewGift (resize/palette,
not under src) as the dimensions it produces. -/
def processTask (tf tfL tfR : Img → Int × Int) (opts : ImageOptions)
    (id : Nat) (p : String) (src0 : Img) : List OutImage :=
  let src := cropStage opts src0
  let d := tf src
  let part0 : OutImage := ⟨id, 0, d.1, d.2, id == 0, false, p⟩
  if splitEligible opts id src then
    part0 :: (newGiftSplitDoublePage tfL tfR).enum.map (fun ig =>
      let dd := ig.2 src
      ⟨id, ig.1 + 1, dd.1, dd.2, false, false, p⟩)
  else [part0]

/-- The imageTask record of image_processing.go; the deferred open+decode of
the Reader is carried as its outcome. -/
structure ImageTask where
  id : Nat
  relPath : String
  filename : String
  decode : Except String Img

/-- One iteration of the LoadImages worker loop including the decode: on a
decode error the Go code prints the error and calls os.Exit(1), which aborts
the whole run; this is embedded as Except.error. -/
def loadImagesWorkerStep (tf tfL tfR : Img → Int × Int) (opts : ImageOptions)
    (t : ImageTask) : Except String (List OutImage) :=
  match t.decode with
  | Except.error e =>
    Except.error ("error processing image " ++ t.filename ++ ": " ++ e)
  | Except.ok src0 => Except.ok (processTask tf tfL tfR opts t.id t.relPath src0)

/-- The dry branch of LoadImages: every queued task becomes an Image with
Part 0, no data, zero dimensions, and IsCover and NeedSpace false. -/
def dryImages (ts : List ImageTask) : List OutImage :=
  ts.map (fun t => ⟨t.id, 0, 0, 0, false, false, t.relPath⟩)

/-- The blank-page test of the assembler loop: the result is dropped when
NoBlankPage is set and the transformed dimensions are exactly 1x1. -/
def blankDrop (noBlankPage : Bool) (w h : Int) : Bool :=
  noBlankPage && w == 1 && h == 1

/-- The assembly loop of LoadImages: results are appended in the order they
arrive on the output channel, each kept unless the blank-page test drops it.
No sort is applied. -/
def assembleImages (noBlankPage : Bool) (arrivals : List OutImage) : List OutImage :=
  arrivals.filter (fun o => !blankDrop noBlankPage o.width o.height)

/-- End of LoadImages: after assembly, an empty collection is the error
"image not found". -/
def loadImagesAssemble (noBlankPage : Bool) (arrivals : List OutImage) :
    Except String (List OutImage) :=
  let imgs := assembleImages noBlankPage arrivals
  if imgs.length = 0 then Except.error "image not found" else Except.ok imgs

/-- The (Index, Part) order of the spec: ascending Index, then ascending
Part. -/
def IdPartLE (a b : OutImage) : Prop :=
  a.id < b.id ∨ (a.id = b.id ∧ a.part ≤ b.part)

instance : DecidableRel IdPartLE := fun a b => by
  unfold IdPartLE; infer_instance

/-! ### The loader with decode fallback (package epubimageprocessor) -/

/-- The corruptedImage card of epub_image_processor_loader.go: a 1200x1920
gg context carrying the entry's grouping path and name and the
"is corrupted!" notice.  The gg drawing calls (clear, rectangles, wrapped
text) never change the context's dimensions, so the card is exactly the
1200x1920 canvas. -/
structure FallbackImage where
  width : Int
  height : Int
  path : String
  name : String
deriving DecidableEq, Repr

/-- corruptedImage(path, name): w, h = 1200, 1920. -/
def corruptedImage (path name : String) : FallbackImage :=
  ⟨1200, 1920, path, name⟩

/-- The bitmap slot of a loader task: a decoded bitmap, the fallback card,
or nothing (dry mode). -/
inductive TaskImage where
  | real (img : Img)
  | fallback (fb : FallbackImage)
  | empty

/-- One queued job of the loader: its id, the grouping path and name its
full path splits into, and the outcome of os.Open + image.Decode (the codec
is external; its result for this entry is data of the embedding). -/
structure LoadJob where
  id : Nat
  relPath : String
  name : String
  decode : Except String Img

/-- The task record the loader emits. -/
structure LoaderTask where
  id : Nat
  image : TaskImage
  path : String
  name : String
  error : Option String

/-- One iteration of the loader worker of loadDir (loadCbz and loadCbr share
the same shape): in dry mode nothing is decoded and no error is recorded;
otherwise a decode error substitutes the corruptedImage card built from the
entry's grouping path and name, and the error is kept on the task. -/
def loadWorkerStep (dry : Bool) (j : LoadJob) : LoaderTask :=
  if dry then ⟨j.id, TaskImage.empty, j.relPath, j.name, none⟩
  else
    match j.decode with
    | Except.ok img => ⟨j.id, TaskImage.real img, j.relPath, j.name, none⟩
    | Except.error e =>
      ⟨j.id, TaskImage.fallback (corruptedImage j.relPath j.name), j.relPath,
        j.name, some e⟩

/-- The loader workers drain the whole job queue; every job yields exactly
one task. -/
def loadDirTasks (dry : Bool) (jobs : List LoadJob) : List LoaderTask :=
  jobs.map (loadWorkerStep dry)

/-! ### Enumeration: zip and rar adapters -/

/-- ASCII lower-casing of one character; the recognized extensions are pure
ASCII, for which this agrees with Go strings.ToLower. -/
def toLowerChar (c : Char) : Char :=
  if 'A' ≤ c ∧ c ≤ 'Z' then Char.ofNat (c.toNat + 32) else c

/-- strings.ToLower restricted to ASCII case folding. -/
def strToLower (s : String) : String := String.mk (s.data.map toLowerChar)

/-- filepath.Ext: walk the path from its end; a separator before any dot
means no extension, a dot yields the suffix from that dot on.  The first
argument is the reversed character list still to scan, the second the
characters already passed (in original order). -/
def pathExtAux : List Char → List Char → String
  | [], _ => ""
  | c :: rest, acc =>
    if c = '/' then ""
    else if c = '.' then String.mk ('.' :: acc)
    else pathExtAux rest (c :: acc)

/-- filepath.Ext(path) on a slash-separated path. -/
def pathExt (s : String) : String := pathExtAux s.data.reverse []

/-- isSupportedImage: the lower-cased extension is one of
.jpg, .jpeg, .png, .webp. -/
def isSupportedImage (path : String) : Bool :=
  let e := strToLower (pathExt path)
  e == ".jpg" || e == ".jpeg" || e == ".png" || e == ".webp"

/-- A zip file-table entry (name and directory flag; the deferred content is
irrelevant to the enumeration claims). -/
structure ZipFile where
  name : String
  isDir : Bool
deriving DecidableEq, Repr

/-- The qualifying entries of a zip: not a directory and a supported image
extension, kept in physical file-table order. -/
def qualifyingZip (files : List ZipFile) : List ZipFile :=
  files.filter (fun f => !f.isDir && isSupportedImage f.name)

/-- Insert into a list sorted by the supplied comparator. -/
def insertLe (le : String → String → Bool) (x : String) :
    List String → List String
  | [] => [x]
  | y :: t => if le x y then x :: y :: t else y :: insertLe le x t

/-- sort.Sort with the sortpath natural-order comparator; the comparator is
a collaborator, so the sort is parameterized by it.  Insertion sort models
the sorted result. -/
def sortNames (le : String → String → Bool) : List String → List String
  | [] => []
  | x :: t => insertLe le x (sortNames le t)

/-- The Go loop building indexedNames: for i, name := range names, insert
name ↦ i into the map, later entries overwriting earlier ones. -/
def mapInsertLoop : List String → Nat → (String → Option Nat) →
    (String → Option Nat)
  | [], _, m => m
  | nm :: t, i, m =>
    mapInsertLoop t (i + 1) (fun k => if k = nm then some i else m k)

/-- indexedNames: the map from a name to the (last) position at which it
occurs in the given list. -/
def indexedNames (names : List String) : String → Option Nat :=
  mapInsertLoop names 0 (fun _ => none)

/-- Position of the first occurrence of a name in a list (the spec's
"the name's position in the sorted list"). -/
def posIn (k : String) : List String → Nat
  | [] => 0
  | nm :: t => if nm = k then 0 else posIn k t + 1

/-- A task emitted by loadCbz: the looked-up id and the entry name. -/
structure CbzTask where
  id : Nat
  name : String
deriving DecidableEq, Repr

/-- loadCbz: filter the file table, sort the qualifying names with the
comparator, build indexedNames from the sorted list, then stream the
qualifying entries in physical order, each with Id = indexedNames[name]
(the name is always present; getD 0 models the Go map read). -/
def loadCbzTasks (le : String → String → Bool) (files : List ZipFile) :
    List CbzTask :=
  let names := (qualifyingZip files).map ZipFile.name
  let sorted := sortNames le names
  (qualifyingZip files).map (fun f => ⟨(indexedNames sorted f.name).getD 0, f.name⟩)

/-- The GlobalIndex sequence loadCbz assigns, in physical entry order. -/
def loadCbzIds (le : String → String → Bool) (files : List ZipFile) : List Nat :=
  (loadCbzTasks le files).map CbzTask.id

/-- A rar list entry: name, directory flag, and whether the entry is solid
(rardecode.List exposes Solid per entry). -/
structure RarFileInfo where
  name : String
  isDir : Bool
  solid : Bool
deriving DecidableEq, Repr

/-- The qualifying rar entries, in listing order. -/
def rarQualifying (files : List RarFileInfo) : List RarFileInfo :=
  files.filter (fun f => !f.isDir && isSupportedImage f.name)

/-- The isSolid flag of loadCbr: set when any qualifying entry is solid. -/
def rarIsSolid (files : List RarFileInfo) : Bool :=
  (rarQualifying files).any (fun f => f.solid)

/-- The two ways loadCbr hands entries to the workers. -/
inductive CbrStrategy where
  | sequentialBuffer
  | independentOpens
deriving DecidableEq, Repr

/-- The branch loadCbr takes: one sequential full-archive pass that buffers
each entry's bytes when isSolid and not Dry, else per-entry independent
opens. -/
def cbrStrategy (dry : Bool) (files : List RarFileInfo) : CbrStrategy :=
  if rarIsSolid files && !dry then CbrStrategy.sequentialBuffer
  else CbrStrategy.independentOpens

/-! ### Concrete sample inputs used by witnesses and counterexamples -/

/-- A transform standing in for NewGift in concrete instances: it reports
the dimensions of its input. -/
def tfDim : Img → Int × Int := fun i => (i.dx, i.dy)

/-- Character-list comparison by code point, used to build a concrete
comparator whose evaluation the kernel can carry out. -/
def charListLe : List Char → List Char → Bool
  | [], _ => true
  | _ :: _, [] => false
  | a :: as, b :: bs =>
    if a.toNat < b.toNat then true
    else if b.toNat < a.toNat then false
    else charListLe as bs

/-- A concrete total order on names standing in for the natural-order
comparator in concrete instances. -/
def le0 : String → String → Bool := fun a b => charListLe a.data b.data

/-- Options for the C1 counterexample (crop off). -/
def opts1 : ImageOptions := ⟨false, 3, 5, 85, 1, true, true, false⟩

/-- A task whose deferred decode fails. -/
def badTask : ImageTask := ⟨3, "", "bad.jpg", Except.error "unexpected EOF"⟩

/-- A loader job whose decode succeeds. -/
def jGood : LoadJob := ⟨0, "", "a.jpg", Except.ok ⟨0, 0, 1, 1, fun _ _ => 0⟩⟩

/-- A loader job whose decode fails. -/
def jBad : LoadJob := ⟨1, "vol1", "b.jpg", Except.error "bad header"⟩

/-- An arrival with Index 1. -/
def arrA : OutImage := ⟨1, 0, 5, 5, false, false, ""⟩

/-- An arrival with Index 0. -/
def arrB : OutImage := ⟨0, 0, 5, 5, true, false, ""⟩

/-- Options for the C3 counterexample: crop on, view 3x5. -/
def opts3 : ImageOptions := ⟨true, 3, 5, 85, 1, true, true, false⟩

/-- A 6x6 bitmap whose non-blank content is the full-width band of rows
1..4: square before cropping, 6x4 (wide) after cropping. -/
def img3 : Img := ⟨0, 0, 6, 6, fun _ y => if 1 ≤ y ∧ y ≤ 4 then 0 else 255⟩

/-- Options for the C4 instances: crop off, view 3x5. -/
def opts4 : ImageOptions := ⟨false, 3, 5, 85, 1, true, true, false⟩

/-- A 6x4 all-dark bitmap, split-eligible for view 3x5. -/
def img4 : Img := ⟨0, 0, 6, 4, fun _ _ => 0⟩

/-- A 1x1 all-blank bitmap. -/
def blank1 : Img := ⟨0, 0, 1, 1, fun _ _ => 255⟩

/-- A 2x3 all-blank bitmap (luma 250 ≥ 0xf0). -/
def blankW : Img := ⟨0, 0, 2, 3, fun _ _ => 250⟩

/-- A zip file table with two identically named qualifying entries. -/
def files7dup : List ZipFile := [⟨"a.jpg", false⟩, ⟨"a.jpg", false⟩]

/-- A zip file table with two distinct qualifying entries, physically out of
sorted order. -/
def files7 : List ZipFile := [⟨"b.jpg", false⟩, ⟨"a.png", false⟩]

/-- A solid qualifying rar entry. -/
def solidFile : RarFileInfo := ⟨"a.jpg", false, true⟩

/-- A 2x2 bitmap whose only dark pixel is the top-left corner. -/
def nonBlankSq : Img := ⟨0, 0, 2, 2, fun x y => if x = 0 ∧ y = 0 then 0 else 255⟩

/-- A task queued for the dry path, with Id 0. -/
def dryTask0 : ImageTask := ⟨0, "", "a.jpg", Except.error "never read"⟩

/-! ## Theorems -/

/-- Helper: enumeration of a two-element list. -/
theorem enum_pair {α : Type} (a b : α) : [a, b].enum = [(0, a), (1, b)] := rfl

/-- Helper: membership in intRange. -/
theorem mem_intRange {lo hi x : Int} : x ∈ intRange lo hi ↔ lo ≤ x ∧ x < hi := by
  unfold intRange
  rw [List.mem_map]
  constructor
  · rintro ⟨k, hk, rfl⟩
    have := List.mem_range.mp hk
    omega
  · intro h
    exact ⟨(x - lo).toNat, List.mem_range.mpr (by omega), by omega⟩

/-- Helper: colBlank is the blankness of every pixel of the column. -/
theorem colBlank_eq_true {img : Img} {yLo yHi x : Int} :
    colBlank img yLo yHi x = true ↔
      ∀ y, yLo ≤ y → y < yHi → colorIsBlank (img.pix x y) = true := by
  simp only [colBlank, List.all_eq_true, mem_intRange]
  constructor
  · intro h y h1 h2; exact h y ⟨h1, h2⟩
  · intro h y hy; exact h y hy.1 hy.2

/-- Helper: rowBlank is the blankness of every pixel of the row. -/
theorem rowBlank_eq_true {img : Img} {xLo xHi y : Int} :
    rowBlank img xLo xHi y = true ↔
      ∀ x, xLo ≤ x → x < xHi → colorIsBlank (img.pix x y) = true := by
  simp only [rowBlank, List.all_eq_true, mem_intRange]
  constructor
  · intro h x h1 h2; exact h x ⟨h1, h2⟩
  · intro h x hx; exact h x hx.1 hx.2

/-- Helper: two Bools agreeing as propositions are equal. -/
theorem boolEq_of_iff {a b : Bool} (h : a = true ↔ b = true) : a = b := by
  cases a <;> cases b <;> simp_all

/-- The result of shrinkLo is at least its starting point. -/
theorem shrinkLo_ge (P : Int → Bool) (hi : Int) :
    ∀ (f : Nat) (lo : Int), lo ≤ shrinkLo P hi lo f := by
  intro f
  induction f with
  | zero => intro lo; exact le_refl _
  | succ f ih =>
    intro lo
    simp only [shrinkLo]
    by_cases h : lo < hi ∧ P lo = true
    · rw [if_pos h]; exact le_trans (by omega) (ih (lo + 1))
    · rw [if_neg h]

/-- The result of shrinkLo is at most hi when it starts at most hi. -/
theorem shrinkLo_le (P : Int → Bool) (hi : Int) :
    ∀ (f : Nat) (lo : Int), lo ≤ hi → shrinkLo P hi lo f ≤ hi := by
  intro f
  induction f with
  | zero => intro lo h; exact h
  | succ f ih =>
    intro lo h
    simp only [shrinkLo]
    by_cases hc : lo < hi ∧ P lo = true
    · rw [if_pos hc]; exact ih (lo + 1) (by omega)
    · rw [if_neg hc]; exact h

/-- Every sweep line strictly below the result of shrinkLo is blank. -/
theorem shrinkLo_blank (P : Int → Bool) (hi : Int) :
    ∀ (f : Nat) (lo x : Int), lo ≤ x → x < shrinkLo P hi lo f → P x = true := by
  intro f
  induction f with
  | zero => intro lo x h1 h2; simp only [shrinkLo] at h2; omega
  | succ f ih =>
    intro lo x h1 h2
    simp only [shrinkLo] at h2
    by_cases hc : lo < hi ∧ P lo = true
    · rw [if_pos hc] at h2
      rcases eq_or_lt_of_le h1 with rfl | hlt
      · exact hc.2
      · exact ih (lo + 1) x (by omega) h2
    · rw [if_neg hc] at h2; omega

/-- shrinkLo only looks at the predicate inside [lo, hi). -/
theorem shrinkLo_congr (P Q : Int → Bool) (hi : Int) :
    ∀ (f : Nat) (lo : Int), (∀ x, lo ≤ x → x < hi → P x = Q x) →
      shrinkLo P hi lo f = shrinkLo Q hi lo f := by
  intro f
  induction f with
  | zero => intro lo _; rfl
  | succ f ih =>
    intro lo hag
    simp only [shrinkLo]
    by_cases hc : lo < hi
    · rw [hag lo (le_refl _) hc]
      by_cases hq : lo < hi ∧ Q lo = true
      · rw [if_pos hq, if_pos hq]
        exact ih (lo + 1) (fun x h1 h2 => hag x (by omega) h2)
      · rw [if_neg hq, if_neg hq]
    · rw [if_neg (fun hh => hc hh.1), if_neg (fun hh => hc hh.1)]

/-- With every sweep line blank and enough fuel, shrinkLo reaches hi. -/
theorem shrinkLo_all (P : Int → Bool) (hi : Int) :
    ∀ (f : Nat) (lo : Int), (∀ x, lo ≤ x → x < hi → P x = true) →
      lo ≤ hi → (hi - lo).toNat ≤ f → shrinkLo P hi lo f = hi := by
  intro f
  induction f with
  | zero => intro lo _ h1 h2; simp only [shrinkLo]; omega
  | succ f ih =>
    intro lo hall h1 h2
    simp only [shrinkLo]
    rcases eq_or_lt_of_le h1 with rfl | hlt
    · rw [if_neg (by simp)]
    · rw [if_pos ⟨hlt, hall lo (le_refl _) hlt⟩]
      exact ih (lo + 1) (fun x hx1 hx2 => hall x (by omega) hx2) (by omega) (by omega)

/-- The result of shrinkHi is at most its starting point. -/
theorem shrinkHi_le (P : Int → Bool) (lo : Int) :
    ∀ (f : Nat) (hi : Int), shrinkHi P lo hi f ≤ hi := by
  intro f
  induction f with
  | zero => intro hi; exact le_refl _
  | succ f ih =>
    intro hi
    simp only [shrinkHi]
    by_cases hc : lo ≤ hi - 1 ∧ P (hi - 1) = true
    · rw [if_pos hc]; exact le_trans (ih (hi - 1)) (by omega)
    · rw [if_neg hc]

/-- Every sweep line at or above the result of shrinkHi (and below the
starting point) is blank. -/
theorem shrinkHi_blank (P : Int → Bool) (lo : Int) :
    ∀ (f : Nat) (hi x : Int), shrinkHi P lo hi f ≤ x → x < hi → P x = true := by
  intro f
  induction f with
  | zero => intro hi x h1 h2; simp only [shrinkHi] at h1; omega
  | succ f ih =>
    intro hi x h1 h2
    simp only [shrinkHi] at h1
    by_cases hc : lo ≤ hi - 1 ∧ P (hi - 1) = true
    · rw [if_pos hc] at h1
      by_cases hx : x = hi - 1
      · rw [hx]; exact hc.2
      · exact ih (hi - 1) x h1 (by omega)
    · rw [if_neg hc] at h1; omega

/-- When the stop bound already exceeds the scan start, shrinkHi does not
move. -/
theorem shrinkHi_stop (P : Int → Bool) (lo : Int) (f : Nat) (hi : Int)
    (h : hi - 1 < lo) : shrinkHi P lo hi f = hi := by
  cases f with
  | zero => rfl
  | succ f => simp only [shrinkHi]; rw [if_neg (fun hc => by omega)]

/-- Two shrinkHi scans with different stop bounds and predicates agreeing
at and above a non-blank stopper x0 coincide, and both stay above x0. -/
theorem shrinkHi_congr_stop (P Q : Int → Bool) (lo1 lo2 x0 : Int)
    (hlo : lo2 ≤ lo1) (hx0lo : lo1 ≤ x0) (hP0 : P x0 = false) :
    ∀ (f : Nat) (hi : Int), x0 < hi → (∀ x, x0 ≤ x → x < hi → P x = Q x) →
      shrinkHi P lo1 hi f = shrinkHi Q lo2 hi f ∧ x0 < shrinkHi P lo1 hi f := by
  intro f
  induction f with
  | zero => intro hi h1 _; exact ⟨rfl, h1⟩
  | succ f ih =>
    intro hi h1 hag
    have hagx : P (hi - 1) = Q (hi - 1) := hag (hi - 1) (by omega) (by omega)
    simp only [shrinkHi]
    by_cases hp : P (hi - 1) = true
    · have hq : Q (hi - 1) = true := by rw [← hagx]; exact hp
      have hx : x0 < hi - 1 := by
        rcases lt_or_eq_of_le (by omega : x0 ≤ hi - 1) with h | h
        · exact h
        · exfalso; rw [← h] at hp; rw [hP0] at hp; exact Bool.false_ne_true hp
      rw [if_pos ⟨by omega, hp⟩, if_pos ⟨by omega, hq⟩]
      exact ih (hi - 1) hx (fun x hx1 hx2 => hag x hx1 (by omega))
    · have hq : ¬ Q (hi - 1) = true := by rw [← hagx]; exact hp
      rw [if_neg (fun hc => hp hc.2), if_neg (fun hc => hq hc.2)]
      exact ⟨rfl, h1⟩

/-- C1 counterexample: in the epub.LoadImages pipeline, an entry whose bytes
fail to decode terminates the run (os.Exit(1), embedded as Except.error)
instead of continuing with a fallback bitmap, refuting the claim that the
pipeline never aborts on a decode failure. -/
theorem loadImages_aborts_on_decode_error :
    loadImagesWorkerStep tfDim tfDim tfDim opts1 badTask =
      Except.error "error processing image bad.jpg: unexpected EOF" := rfl

/-- C1 amended: in the imageprocessor loaders, an entry whose bytes fail to
decode yields exactly one task carrying the corruptedImage fallback card
(built from the entry's grouping path and name) and the decode error as a
side annotation, and every job in the queue still yields a task. -/
theorem loader_decode_fallback (jobs : List LoadJob) (j : LoadJob) (e : String)
    (hmem : j ∈ jobs) (hfail : j.decode = Except.error e) :
    (loadDirTasks false jobs).length = jobs.length ∧
    loadWorkerStep false j =
      ⟨j.id, TaskImage.fallback (corruptedImage j.relPath j.name), j.relPath,
        j.name, some e⟩ ∧
    loadWorkerStep false j ∈ loadDirTasks false jobs := by
  refine ⟨List.length_map _ _, ?_, List.mem_map_of_mem _ hmem⟩
  simp [loadWorkerStep, hfail]

/-- C1 witness: the fallback behavior at a concrete two-job queue whose
second job fails to decode. -/
theorem loader_decode_fallback_witness :
    (loadDirTasks false [jGood, jBad]).length = [jGood, jBad].length ∧
    loadWorkerStep false jBad =
      ⟨jBad.id, TaskImage.fallback (corruptedImage jBad.relPath jBad.name),
        jBad.relPath, jBad.name, some "bad header"⟩ ∧
    loadWorkerStep false jBad ∈ loadDirTasks false [jGood, jBad] :=
  loader_decode_fallback [jGood, jBad] jBad "bad header"
    (List.mem_cons_of_mem _ (List.mem_singleton_self _)) rfl

/-- C2 counterexample: the assembly loop of LoadImages applies no sort, so
an arrival order in which Index 1 completes before Index 0 is returned
unsorted, refuting the claim that the returned sequence is sorted by
(Index, Part) regardless of worker completion order. -/
theorem assembler_unsorted_counterexample :
    loadImagesAssemble false [arrA, arrB] = Except.ok [arrA, arrB] ∧
    ¬ List.Pairwise IdPartLE [arrA, arrB] := by
  constructor
  · rfl
  · intro h
    have := List.rel_of_pairwise_cons h (List.mem_singleton_self _)
    simp [IdPartLE, arrA, arrB] at this

/-- C2 amended: the assembler preserves arrival order — its output is a
sublist of the arrival sequence — and is therefore sorted by (Index, Part)
exactly when the arrivals already are; no sort is applied. -/
theorem assemble_no_sort (nb : Bool) (arrivals : List OutImage) :
    List.Sublist (assembleImages nb arrivals) arrivals ∧
    (List.Pairwise IdPartLE arrivals →
      List.Pairwise IdPartLE (assembleImages nb arrivals)) :=
  ⟨List.filter_sublist _, fun h => h.sublist (List.filter_sublist _)⟩

/-- C2 witness: a sorted arrival order stays sorted through assembly. -/
theorem assemble_no_sort_witness :
    List.Pairwise IdPartLE (assembleImages false [arrB, arrA]) :=
  (assemble_no_sort false [arrB, arrA]).2
    (by simp [List.pairwise_cons, IdPartLE, arrA, arrB])

/-- C3 counterexample: img3 is square (not wide) before cropping, so the
claim's pre-crop eligibility is false, yet the worker splits it into parts
1 and 2 because the crop has first shrunk it to a wide 6x4: the decision is
taken on the post-crop bitmap, refuting the claim. -/
theorem split_precrop_counterexample :
    splitEligible opts3 1 img3 = false ∧
    (processTask tfDim tfDim tfDim opts3 1 "" img3).map (fun o => o.part) =
      [0, 1, 2] := by
  constructor
  · rfl
  · rfl

/-- C3 amended: a page produces split parts if and only if the eligibility
conditions hold on the bitmap as it enters the split stage, i.e. after the
optional crop, not on the original bitmap. -/
theorem split_decided_post_crop (tf tfL tfR : Img → Int × Int)
    (opts : ImageOptions) (id : Nat) (p : String) (src0 : Img) :
    2 ≤ (processTask tf tfL tfR opts id p src0).length ↔
      splitEligible opts id (cropStage opts src0) = true := by
  by_cases h : splitEligible opts id (cropStage opts src0) = true
  · simp [processTask, h, newGiftSplitDoublePage]
  · simp [processTask, h, newGiftSplitDoublePage]

/-- C4 counterexample: for a split-eligible page the worker emits THREE
results, the unsplit Part 0 first and then the two halves, refuting the
claim that no Part 0 result is emitted and exactly two results appear. -/
theorem split_part0_counterexample :
    splitEligible opts4 1 (cropStage opts4 img4) = true ∧
    (processTask tfDim tfDim tfDim opts4 1 "" img4).map
        (fun o => (o.id, o.part, o.isCover)) =
      [(1, 0, false), (1, 1, false), (1, 2, false)] := by
  constructor
  · rfl
  · rfl

/-- C4 amended: for a split-eligible page, three results are emitted: the
unsplit Part 0 (IsCover iff Index 0), then Part 1 (left half) and Part 2
(right half), each carrying the parent's Index and with IsCover false. -/
theorem split_emits_part0_and_halves (tf tfL tfR : Img → Int × Int)
    (opts : ImageOptions) (id : Nat) (p : String) (src0 : Img)
    (h : splitEligible opts id (cropStage opts src0) = true) :
    (processTask tf tfL tfR opts id p src0).map
        (fun o => (o.id, o.part, o.isCover)) =
      [(id, 0, id == 0), (id, 1, false), (id, 2, false)] := by
  simp [processTask, h, newGiftSplitDoublePage, enum_pair]

/-- C4 witness: the three-result emission at a concrete eligible page. -/
theorem split_emits_part0_and_halves_witness :
    (processTask tfDim tfDim tfDim opts4 2 "" img4).map
        (fun o => (o.id, o.part, o.isCover)) =
      [(2, 0, (2 : Nat) == 0), (2, 1, false), (2, 2, false)] :=
  split_emits_part0_and_halves tfDim tfDim tfDim opts4 2 "" img4 (by decide)

/-- C8 counterexample: a solid archive in dry mode is handed out via
independent opens, not the sequential buffering pass, refuting the claimed
"if and only if the archive is solid". -/
theorem cbr_solid_dry_counterexample :
    rarIsSolid [solidFile] = true ∧
    cbrStrategy true [solidFile] = CbrStrategy.independentOpens := by
  constructor
  · rfl
  · rfl

/-- C8 amended: loadCbr takes the single sequential full-archive buffering
pass if and only if some qualifying entry is solid AND the run is not a dry
run; otherwise entries are opened independently per worker. -/
theorem cbr_strategy_iff (dry : Bool) (files : List RarFileInfo) :
    cbrStrategy dry files = CbrStrategy.sequentialBuffer ↔
      (rarIsSolid files = true ∧ dry = false) := by
  cases dry <;> cases h : rarIsSolid files <;>
    simp [cbrStrategy, h]

/-- C9 counterexample: the dry branch of LoadImages emits the Index 0,
Part 0 entry with IsCover false, refuting the claimed "IsCover iff Index 0
and Part 0" for dry-run results. -/
theorem dry_cover_counterexample :
    (dryImages [dryTask0]).map (fun o => (o.id, o.part, o.isCover)) =
      [(0, 0, false)] := rfl

/-- C9 amended: every result of the processing worker has IsCover exactly
when Index is 0 and Part is 0; dry-run results instead always carry IsCover
false. -/
theorem isCover_iff_processed (tf tfL tfR : Img → Int × Int)
    (opts : ImageOptions) (id : Nat) (p : String) (src0 : Img)
    (ts : List ImageTask) :
    ((processTask tf tfL tfR opts id p src0).all
        (fun o => o.isCover == (o.id == 0 && o.part == 0))) = true ∧
    ((dryImages ts).all (fun o => o.isCover == false)) = true := by
  constructor
  · by_cases h : splitEligible opts id (cropStage opts src0) = true
    · simp [processTask, h, newGiftSplitDoublePage, enum_pair]
    · simp [processTask, h, newGiftSplitDoublePage]
  · simp [dryImages, List.all_map]

/-- C10: the corruptedImage fallback card is exactly 1200x1920, never the
degenerate 1x1, so the blank-page test of the assembler never drops it. -/
theorem corrupted_image_dims (p n : String) (nb : Bool) :
    (corruptedImage p n).width = 1200 ∧ (corruptedImage p n).height = 1920 ∧
    blankDrop nb (corruptedImage p n).width (corruptedImage p n).height =
      false := by
  refine ⟨rfl, rfl, ?_⟩
  cases nb <;> rfl

/-- C6: an all-blank bitmap yields a margin rectangle of zero (hence not
positive) area, and the modelled crop stage keeps the original bitmap
unchanged. -/
theorem blank_margin_crop (img : Img) (hwf : WellFormed img) (hb : AllBlank img) :
    (findMarging img).area ≤ 0 ∧ applyCrop (findMarging img) img = img := by
  obtain ⟨hx, hy⟩ := hwf
  have hcols : ∀ x, img.minX ≤ x → x < img.maxX →
      colBlank img img.minY img.maxY x = true := by
    intro x h1 h2
    rw [colBlank_eq_true]
    intro y hy1 hy2
    exact hb x y h1 h2 hy1 hy2
  have hm1x : shrinkLo (colBlank img img.minY img.maxY) img.maxX img.minX
      ((img.maxX - img.minX).toNat) = img.maxX :=
    shrinkLo_all _ _ _ _ hcols hx (le_refl _)
  have hrows : ∀ y, img.minY ≤ y → y < img.maxY →
      rowBlank img img.maxX img.maxX y = true := by
    intro y _ _
    rw [rowBlank_eq_true]
    intro x hx1 hx2
    exact absurd (hx1.trans_lt hx2) (lt_irrefl _)
  have hm1y : shrinkLo (rowBlank img img.maxX img.maxX) img.maxY img.minY
      ((img.maxY - img.minY).toNat) = img.maxY :=
    shrinkLo_all _ _ _ _ hrows hy (le_refl _)
  have hrect : findMarging img = ⟨img.maxX, img.maxY, img.maxX, img.maxY⟩ := by
    simp only [findMarging]
    rw [hm1x, hm1y]
    rw [shrinkHi_stop _ _ _ _ (by omega), shrinkHi_stop _ _ _ _ (by omega)]
  rw [hrect]
  constructor
  · simp [Rect.area, Rect.dx, Rect.dy]
  · simp [applyCrop]

/-- C5 amended: on any bitmap containing at least one non-blank pixel, the
four passes of findMarging produce exactly the four independent shrinks
computed against the original bounds. -/
theorem marging_indep_of_nonblank (img : Img) (hwf : WellFormed img)
    (hnb : ∃ x y, img.minX ≤ x ∧ x < img.maxX ∧ img.minY ≤ y ∧ y < img.maxY ∧
      colorIsBlank (img.pix x y) = false) :
    findMarging img = findMargingIndep img := by
  obtain ⟨hx, hy⟩ := hwf
  obtain ⟨x0, y0, hx0a, hx0b, hy0a, hy0b, hnb0⟩ := hnb
  simp only [findMarging, findMargingIndep]
  set w := (img.maxX - img.minX).toNat with hw
  set h := (img.maxY - img.minY).toNat with hh
  set PL := colBlank img img.minY img.maxY with hPL
  set m1x := shrinkLo PL img.maxX img.minX w with hm1xdef
  -- facts about the LEFT pass
  have hm1x_ge : img.minX ≤ m1x := shrinkLo_ge _ _ _ _
  have hm1x_le : m1x ≤ img.maxX := shrinkLo_le _ _ _ _ hx
  have hLb : ∀ x, img.minX ≤ x → x < m1x → PL x = true := by
    intro x h1 h2
    exact shrinkLo_blank _ _ _ _ _ h1 h2
  have hx0m : m1x ≤ x0 := by
    by_contra hcon
    push_neg at hcon
    have hbl := hLb x0 hx0a hcon
    rw [hPL, colBlank_eq_true] at hbl
    have := hbl y0 hy0a hy0b
    rw [hnb0] at this
    exact Bool.false_ne_true this
  -- the UP pass: narrowed and full predicates agree
  set PU := rowBlank img m1x img.maxX with hPU
  set QU := rowBlank img img.minX img.maxX with hQU
  have hUag : ∀ y, img.minY ≤ y → y < img.maxY → PU y = QU y := by
    intro y hy1 hy2
    apply boolEq_of_iff
    rw [hPU, hQU, rowBlank_eq_true, rowBlank_eq_true]
    constructor
    · intro hnarrow x h1 h2
      by_cases hxm : x < m1x
      · have hbl := hLb x h1 hxm
        rw [hPL, colBlank_eq_true] at hbl
        exact hbl y hy1 hy2
      · exact hnarrow x (by omega) h2
    · intro hfull x h1 h2
      exact hfull x (by omega) h2
  set m1y := shrinkLo PU img.maxY img.minY h with hm1ydef
  have hm1yEq : m1y = shrinkLo QU img.maxY img.minY h := by
    rw [hm1ydef]
    exact shrinkLo_congr _ _ _ _ _ hUag
  have hm1y_ge : img.minY ≤ m1y := shrinkLo_ge _ _ _ _
  have hm1y_le : m1y ≤ img.maxY := shrinkLo_le _ _ _ _ hy
  have hUb : ∀ y, img.minY ≤ y → y < m1y → PU y = true := by
    intro y h1 h2
    exact shrinkLo_blank _ _ _ _ _ h1 h2
  have hy0m : m1y ≤ y0 := by
    by_contra hcon
    push_neg at hcon
    have hbl := hUb y0 hy0a hcon
    rw [hPU, rowBlank_eq_true] at hbl
    have := hbl x0 (by omega) hx0b
    rw [hnb0] at this
    exact Bool.false_ne_true this
  -- the RIGHT pass
  set PR := colBlank img m1y img.maxY with hPR
  have hPR0 : PR x0 = false := by
    rw [hPR]
    by_contra hcon
    have hbl : colBlank img m1y img.maxY x0 = true := by
      cases hc : colBlank img m1y img.maxY x0
      · exact absurd hc hcon
      · rfl
    rw [colBlank_eq_true] at hbl
    have := hbl y0 hy0m hy0b
    rw [hnb0] at this
    exact Bool.false_ne_true this
  have hPL0 : PL x0 = false := by
    rw [hPL]
    by_contra hcon
    have hbl : colBlank img img.minY img.maxY x0 = true := by
      cases hc : colBlank img img.minY img.maxY x0
      · exact absurd hc hcon
      · rfl
    rw [colBlank_eq_true] at hbl
    have := hbl y0 hy0a hy0b
    rw [hnb0] at this
    exact Bool.false_ne_true this
  have hRag : ∀ x, x0 ≤ x → x < img.maxX → PR x = PL x := by
    intro x h1 h2
    apply boolEq_of_iff
    rw [hPR, hPL, colBlank_eq_true, colBlank_eq_true]
    constructor
    · intro hnarrow y hy1 hy2
      by_cases hym : y < m1y
      · have hbl := hUb y hy1 hym
        rw [hPU, rowBlank_eq_true] at hbl
        exact hbl x (by omega) h2
      · exact hnarrow y (by omega) hy2
    · intro hfull y hy1 hy2
      exact hfull y (by omega) hy2
  have hg3 := shrinkHi_congr_stop PR PL m1x img.minX x0 hm1x_ge hx0m hPR0 w
      img.maxX hx0b hRag
  set m2x := shrinkHi PR m1x img.maxX w with hm2xdef
  have hm2xEq : m2x = shrinkHi PL img.minX img.maxX w := hg3.1
  have hm2x_gt : x0 < m2x := hg3.2
  have hm2x_le : m2x ≤ img.maxX := shrinkHi_le _ _ _ _
  have hRb : ∀ x, m2x ≤ x → x < img.maxX → PR x = true := by
    intro x h1 h2
    exact shrinkHi_blank _ _ _ _ _ h1 h2
  -- the BOTTOM pass
  set PB := rowBlank img m1x m2x with hPB
  have hPB0 : PB y0 = false := by
    rw [hPB]
    by_contra hcon
    have hbl : rowBlank img m1x m2x y0 = true := by
      cases hc : rowBlank img m1x m2x y0
      · exact absurd hc hcon
      · rfl
    rw [rowBlank_eq_true] at hbl
    have := hbl x0 hx0m hm2x_gt
    rw [hnb0] at this
    exact Bool.false_ne_true this
  have hBag : ∀ y, y0 ≤ y → y < img.maxY → PB y = QU y := by
    intro y h1 h2
    apply boolEq_of_iff
    rw [hPB, hQU, rowBlank_eq_true, rowBlank_eq_true]
    constructor
    · intro hnarrow x hx1 hx2
      by_cases hxm : x < m1x
      · have hbl := hLb x hx1 hxm
        rw [hPL, colBlank_eq_true] at hbl
        exact hbl y (by omega) h2
      · by_cases hxr : x < m2x
        · exact hnarrow x (by omega) hxr
        · have hbl := hRb x (by omega) hx2
          rw [hPR, colBlank_eq_true] at hbl
          exact hbl y (by omega) h2
    · intro hfull x hx1 hx2
      exact hfull x (by omega) (by omega)
  have hg4 := shrinkHi_congr_stop PB QU m1y img.minY y0 hm1y_ge hy0m hPB0 h
      img.maxY hy0b hBag
  rw [Rect.mk.injEq]
  exact ⟨rfl, hm1yEq, hm2xEq, hg4.1⟩

/-- C5 counterexample: on the all-blank 1x1 bitmap the RIGHT and BOTTOM
passes cannot move (the LEFT and UP passes have already consumed the whole
bounds), so the four shrink amounts differ from the independent,
original-bounds shrinks the claim asserts, refuting the claim for every
bitmap. -/
theorem marging_indep_counterexample :
    findMarging blank1 ≠ findMargingIndep blank1 := by decide

/-- C5 witness: the side-independence at a concrete bitmap whose top-left
pixel is dark. -/
theorem marging_indep_witness :
    findMarging nonBlankSq = findMargingIndep nonBlankSq :=
  marging_indep_of_nonblank nonBlankSq (by exact ⟨by decide, by decide⟩)
    ⟨0, 0, by decide, by decide, by decide, by decide, by rfl⟩

/-- C6 witness: the all-blank fallback behavior at a concrete 2x3 blank
bitmap. -/
theorem blank_margin_crop_witness :
    (findMarging blankW).area ≤ 0 ∧
    applyCrop (findMarging blankW) blankW = blankW :=
  blank_margin_crop blankW (by exact ⟨by decide, by decide⟩)
    (by intro x y _ _ _ _; rfl)

/-- Inserting into a list is a permutation of consing. -/
theorem insertLe_perm (le : String → String → Bool) (x : String) :
    ∀ l : List String, List.Perm (insertLe le x l) (x :: l)
  | [] => List.Perm.refl _
  | y :: t => by
    simp only [insertLe]
    by_cases h : le x y = true
    · rw [if_pos h]
    · rw [if_neg h]
      exact List.Perm.trans ((insertLe_perm le x t).cons y) (List.Perm.swap x y t)

/-- The comparator sort permutes its input. -/
theorem sortNames_perm (le : String → String → Bool) :
    ∀ l : List String, List.Perm (sortNames le l) l
  | [] => List.Perm.refl _
  | x :: t => List.Perm.trans (insertLe_perm le x _) ((sortNames_perm le t).cons x)

/-- A name not in the inserted list is looked up in the starting map. -/
theorem mapInsertLoop_not_mem (k : String) :
    ∀ (l : List String) (i : Nat) (m : String → Option Nat), k ∉ l →
      mapInsertLoop l i m k = m k
  | [], _, _, _ => rfl
  | nm :: t, i, m, h => by
    simp only [mapInsertLoop]
    rw [mapInsertLoop_not_mem k t (i + 1) _
      (fun hc => h (List.mem_cons_of_mem _ hc))]
    rw [if_neg (fun hc : k = nm => h (by rw [hc]; exact List.mem_cons_self nm t))]

/-- On a duplicate-free list the Go index map returns the offset position of
the name. -/
theorem mapInsertLoop_mem (k : String) :
    ∀ (l : List String), l.Nodup → k ∈ l →
      ∀ (i : Nat) (m : String → Option Nat),
        mapInsertLoop l i m k = some (i + posIn k l)
  | [], _, hmem, _, _ => absurd hmem (List.not_mem_nil k)
  | nm :: t, hnd, hmem, i, m => by
    obtain ⟨hnm, hndt⟩ := List.nodup_cons.mp hnd
    simp only [mapInsertLoop]
    rcases List.mem_cons.mp hmem with rfl | hkt
    · have hknott : k ∉ t := hnm
      rw [mapInsertLoop_not_mem k t (i + 1) _ hknott]
      simp [posIn]
    · have hne : nm ≠ k := fun hc => hnm (hc ▸ hkt)
      rw [mapInsertLoop_mem k t hndt hkt (i + 1)]
      simp only [posIn]
      rw [if_neg hne]
      congr 1
      omega

/-- indexedNames on a duplicate-free list is the position of the name. -/
theorem indexedNames_nodup (names : List String) (k : String)
    (hnd : names.Nodup) (hmem : k ∈ names) :
    indexedNames names k = some (posIn k names) := by
  unfold indexedNames
  rw [mapInsertLoop_mem k names hnd hmem 0]
  rw [Nat.zero_add]

/-- Mapping each element of a duplicate-free list to its own position gives
the range of the length. -/
theorem posIn_map_self :
    ∀ l : List String, l.Nodup →
      l.map (fun k => posIn k l) = List.range l.length
  | [], _ => rfl
  | nm :: t, hnd => by
    obtain ⟨hnm, hndt⟩ := List.nodup_cons.mp hnd
    have h2 : t.map (fun k => posIn k (nm :: t)) =
        t.map (fun k => posIn k t + 1) := by
      apply List.map_congr_left
      intro k hk
      simp only [posIn]
      rw [if_neg (fun hc : nm = k => hnm (by rw [hc]; exact hk))]
    simp only [List.map_cons, List.length_cons, List.range_succ_eq_map]
    rw [h2]
    have h3 : posIn nm (nm :: t) = 0 := by simp [posIn]
    rw [h3]
    congr 1
    rw [← posIn_map_self t hndt, List.map_map]
    rfl

/-- C7 amended: when the qualifying entry names are pairwise distinct, the
GlobalIndex sequence loadCbz assigns is a permutation of 0..N-1 and every
task's index is exactly its name's position in the comparator-sorted name
list. -/
theorem cbz_ids_perm (le : String → String → Bool) (files : List ZipFile)
    (hnd : ((qualifyingZip files).map ZipFile.name).Nodup) :
    List.Perm (loadCbzIds le files)
      (List.range ((qualifyingZip files).map ZipFile.name).length) ∧
    ∀ t ∈ loadCbzTasks le files,
      t.id = posIn t.name (sortNames le ((qualifyingZip files).map ZipFile.name)) := by
  set names := (qualifyingZip files).map ZipFile.name with hnames
  set sorted := sortNames le names with hsorted
  have hperm : List.Perm sorted names := sortNames_perm le names
  have hnds : sorted.Nodup := hperm.nodup_iff.mpr hnd
  have hlookup : ∀ nm, nm ∈ names → (indexedNames sorted nm).getD 0 = posIn nm sorted := by
    intro nm hm
    rw [indexedNames_nodup sorted nm hnds (hperm.mem_iff.mpr hm)]
    rfl
  have hids : loadCbzIds le files =
      names.map (fun nm => (indexedNames sorted nm).getD 0) := by
    simp only [loadCbzIds, loadCbzTasks, hnames, hsorted, List.map_map]
    rfl
  constructor
  · rw [hids, List.map_congr_left (fun nm hm => hlookup nm hm)]
    have hmapperm : List.Perm (names.map (fun nm => posIn nm sorted))
        (sorted.map (fun nm => posIn nm sorted)) := hperm.symm.map _
    rw [posIn_map_self sorted hnds, hperm.length_eq] at hmapperm
    exact hmapperm
  · intro t ht
    simp only [loadCbzTasks, hnames, hsorted, List.mem_map] at ht
    obtain ⟨f, hf, rfl⟩ := ht
    exact hlookup f.name (List.mem_map_of_mem _ hf)

/-- C7 counterexample: a zip with two identically named qualifying entries
assigns both the index 1 (the Go map keeps only the last position), so the
GlobalIndex sequence is not a permutation of 0..N-1, refuting the claim for
every source. -/
theorem cbz_ids_duplicate_counterexample :
    loadCbzIds le0 files7dup = [1, 1] ∧
    ¬ List.Perm (loadCbzIds le0 files7dup) (List.range 2) := by
  have he : loadCbzIds le0 files7dup = [1, 1] := by decide
  refine ⟨he, fun h => ?_⟩
  rw [he] at h
  exact absurd (h.count_eq 1) (by decide)

/-- C7 witness: the dense-permutation invariant at a concrete two-entry zip
with distinct names. -/
theorem cbz_ids_perm_witness :
    List.Perm (loadCbzIds le0 files7)
      (List.range ((qualifyingZip files7).map ZipFile.name).length) :=
  (cbz_ids_perm le0 files7 (by decide)).1

end GoComic
